import Mathlib

set_option linter.unusedVariables false

/-!
Verification of the pomegranate tutorial code (custom distributions).

The Python classes `NormalDistribution2`, `StudentTDistribution` and
`BlockGaussianDistribution` from the "Custom Distributions" notebook are
embedded shallowly.  Numpy float arithmetic is idealized as exact rational
arithmetic, except where the float semantics itself matters: division by
zero, infinities and NaN are modelled by the `NPVal` type (rational
magnitudes) and `NPRVal` (real magnitudes, needed once a square root has
been taken).  Datasets are lists of rationals (the source reshapes `(n,1)`
arrays to flat `(n,)` vectors before accumulating).
-/

/-- Value of a numpy float computation whose finite values are rational:
a finite rational, one of the two infinities, or NaN. -/
inductive NPVal where
  | fin : ℚ → NPVal
  | pinf : NPVal
  | ninf : NPVal
  | nan : NPVal
deriving DecidableEq

/-- Numpy float division of two (exactly represented) rationals:
`0/0` is NaN, `a/0` for nonzero `a` is a signed infinity, otherwise the
exact quotient. -/
def npdiv (a b : ℚ) : NPVal :=
  if b = 0 then (if a = 0 then .nan else if 0 < a then .pinf else .ninf)
  else .fin (a / b)

/-- Numpy float subtraction on `NPVal`: NaN propagates, `∞ - ∞` of equal
signs is NaN, infinities absorb finite values. -/
def npsub : NPVal → NPVal → NPVal
  | .fin a, .fin b => .fin (a - b)
  | .fin _, .pinf => .ninf
  | .fin _, .ninf => .pinf
  | .pinf, .fin _ => .pinf
  | .pinf, .ninf => .pinf
  | .ninf, .fin _ => .ninf
  | .ninf, .pinf => .ninf
  | _, _ => .nan

/-- Value of a numpy float computation whose finite values are real
(needed after `numpy.sqrt`). -/
inductive NPRVal where
  | fin : ℝ → NPRVal
  | pinf : NPRVal
  | ninf : NPRVal
  | nan : NPRVal

/-- Numpy `sqrt` applied to an `NPVal`: the square root of a negative
number (or of `-∞` or NaN) is NaN. -/
noncomputable def npsqrt : NPVal → NPRVal
  | .fin a => if a < 0 then .nan else .fin (Real.sqrt (a : ℚ))
  | .pinf => .pinf
  | .ninf => .nan
  | .nan => .nan

/-- Weighted dot product `X.dot(w)` of two equal-length numpy vectors. -/
def npdot (x w : List ℚ) : ℚ := (List.zipWith (· * ·) x w).sum

/-- Closed form of `scipy.stats.norm.logpdf(x, m, s)` for finite
parameters with positive scale. -/
noncomputable def normLogpdf (m s x : ℝ) : ℝ :=
  -Real.log (Real.sqrt (2 * Real.pi) * s) - (x - m) ^ 2 / (2 * s ^ 2)

/-- Closed form of `scipy.stats.t.logpdf(x, df, m, s)` for finite
parameters with positive scale and degrees of freedom. -/
noncomputable def tLogpdf (df m s x : ℝ) : ℝ :=
  Real.log (Real.Gamma ((df + 1) / 2)) - Real.log (Real.Gamma (df / 2))
    - Real.log (Real.sqrt (df * Real.pi) * s)
    - ((df + 1) / 2) * Real.log (1 + ((x - m) / s) ^ 2 / df)

/-- State of the tutorial's pure-Python `NormalDistribution2`: the two
parameters, the cached `parameters` tuple, the dimensionality `d` and the
three-slot sufficient-statistics accumulator `summaries`
(`numpy.zeros(3)` holding sum of weights, weighted sum, weighted sum of
squares). -/
structure NormalDistribution2 where
  mu : NPVal
  std : NPRVal
  parameters : NPVal × NPRVal
  d : ℕ
  summaries : ℚ × ℚ × ℚ

/-- Constructor `NormalDistribution2(mu, std)`. -/
noncomputable def NormalDistribution2.init (mu std : ℚ) : NormalDistribution2 :=
  { mu := .fin mu, std := .fin (std : ℚ), parameters := (.fin mu, .fin (std : ℚ)),
    d := 1, summaries := (0, 0, 0) }

/-- Method `NormalDistribution2.log_probability`, i.e.
`scipy.stats.norm.logpdf(x, self.mu, self.std)` on one sample; scipy
yields NaN for a non-positive scale or non-finite parameters. -/
noncomputable def NormalDistribution2.log_probability
    (dist : NormalDistribution2) (x : ℚ) : NPRVal :=
  match dist.mu, dist.std with
  | .fin m, .fin s => if s ≤ 0 then .nan else .fin (normLogpdf (m : ℚ) s (x : ℚ))
  | _, _ => .nan

/-- Method `NormalDistribution2.summarize(X, w)`: with `w` defaulting to
all ones, adds `w.sum()`, `X.dot(w)` and `(X**2).dot(w)` into the three
accumulator slots. -/
def NormalDistribution2.summarize (dist : NormalDistribution2)
    (X : List ℚ) (w : Option (List ℚ)) : NormalDistribution2 :=
  let wv := w.getD (List.replicate X.length 1)
  { dist with
    summaries := (dist.summaries.1 + wv.sum,
                  dist.summaries.2.1 + npdot X wv,
                  dist.summaries.2.2 + npdot (X.map (· ^ 2)) wv) }

/-- Method `NormalDistribution2.from_summaries(inertia)`: sets
`mu = s1/s0`, `std = sqrt(s2/s0 - s1^2/s0^2)`, refreshes the `parameters`
tuple and clears the accumulator.  The `inertia` argument is accepted but
never read, exactly as in the source. -/
noncomputable def NormalDistribution2.from_summaries
    (dist : NormalDistribution2) (inertia : ℚ) : NormalDistribution2 :=
  let s := dist.summaries
  let muNew := npdiv s.2.1 s.1
  let stdNew := npsqrt (npsub (npdiv s.2.2 s.1) (npdiv (s.2.1 ^ 2) (s.1 ^ 2)))
  { dist with mu := muNew, std := stdNew, parameters := (muNew, stdNew),
              summaries := (0, 0, 0) }

/-- Method `NormalDistribution2.clear_summaries(inertia)`: resets the
accumulator to `numpy.zeros(3)` (the `inertia` argument is unused in the
source as well). -/
def NormalDistribution2.clear_summaries (dist : NormalDistribution2)
    (inertia : ℚ) : NormalDistribution2 :=
  { dist with summaries := (0, 0, 0) }

/-- Classmethod `NormalDistribution2.blank()`: a dummy distribution with
mean and standard deviation 0. -/
noncomputable def NormalDistribution2.blank : NormalDistribution2 :=
  NormalDistribution2.init 0 0

/-- State of the tutorial's `StudentTDistribution`: like
`NormalDistribution2` plus the fixed degrees-of-freedom field `df`
(note the `parameters` tuple holds only `mu` and `std`). -/
structure StudentTDistribution where
  mu : NPVal
  std : NPRVal
  df : ℚ
  parameters : NPVal × NPRVal
  d : ℕ
  summaries : ℚ × ℚ × ℚ

/-- Constructor `StudentTDistribution(mu, std, df)`. -/
noncomputable def StudentTDistribution.init (mu std df : ℚ) : StudentTDistribution :=
  { mu := .fin mu, std := .fin (std : ℚ), df := df,
    parameters := (.fin mu, .fin (std : ℚ)), d := 1, summaries := (0, 0, 0) }

/-- Method `StudentTDistribution.log_probability`, i.e.
`scipy.stats.t.logpdf(x, self.df, self.mu, self.std)`; scipy yields NaN
for a non-positive scale, non-positive degrees of freedom or non-finite
parameters. -/
noncomputable def StudentTDistribution.log_probability
    (dist : StudentTDistribution) (x : ℚ) : NPRVal :=
  match dist.mu, dist.std with
  | .fin m, .fin s =>
      if s ≤ 0 ∨ dist.df ≤ 0 then .nan
      else .fin (tLogpdf (dist.df : ℚ) (m : ℚ) s (x : ℚ))
  | _, _ => .nan

/-- Method `StudentTDistribution.summarize(X, w)`: identical accumulation
to `NormalDistribution2.summarize`. -/
def StudentTDistribution.summarize (dist : StudentTDistribution)
    (X : List ℚ) (w : Option (List ℚ)) : StudentTDistribution :=
  let wv := w.getD (List.replicate X.length 1)
  { dist with
    summaries := (dist.summaries.1 + wv.sum,
                  dist.summaries.2.1 + npdot X wv,
                  dist.summaries.2.2 + npdot (X.map (· ^ 2)) wv) }

/-- Method `StudentTDistribution.from_summaries(inertia)`: identical to
`NormalDistribution2.from_summaries`; `df` is not touched and `inertia`
is accepted but never read, exactly as in the source. -/
noncomputable def StudentTDistribution.from_summaries
    (dist : StudentTDistribution) (inertia : ℚ) : StudentTDistribution :=
  let s := dist.summaries
  let muNew := npdiv s.2.1 s.1
  let stdNew := npsqrt (npsub (npdiv s.2.2 s.1) (npdiv (s.2.1 ^ 2) (s.1 ^ 2)))
  { dist with mu := muNew, std := stdNew, parameters := (muNew, stdNew),
              summaries := (0, 0, 0) }

/-- Method `StudentTDistribution.clear_summaries(inertia)`. -/
def StudentTDistribution.clear_summaries (dist : StudentTDistribution)
    (inertia : ℚ) : StudentTDistribution :=
  { dist with summaries := (0, 0, 0) }

/-- Dot products over concatenated vectors split when the first pair of
factors has matching lengths. -/
theorem npdot_append (x1 w1 x2 w2 : List ℚ) (h : x1.length = w1.length) :
    npdot (x1 ++ x2) (w1 ++ w2) = npdot x1 w1 + npdot x2 w2 := by
  unfold npdot
  rw [List.zipWith_append _ _ _ _ _ h, List.sum_append]

/-- Summarizing two batches in turn is the same as summarizing their
concatenation, provided the first batch's weights match its data in
length. -/
theorem summarize_summarize (dist : NormalDistribution2)
    (X1 w1 X2 w2 : List ℚ) (h : X1.length = w1.length) :
    (dist.summarize X1 (some w1)).summarize X2 (some w2)
      = dist.summarize (X1 ++ X2) (some (w1 ++ w2)) := by
  simp only [NormalDistribution2.summarize, Option.getD_some]
  congr 1
  have h2 : (X1.map (· ^ 2)).length = w1.length := by simpa using h
  simp [List.sum_append, npdot_append _ _ _ _ h, List.map_append,
    npdot_append _ _ _ _ h2, add_assoc]

/-- Summarizing an empty batch with empty weights leaves the state
unchanged. -/
theorem summarize_nil (dist : NormalDistribution2) :
    dist.summarize [] (some []) = dist := by
  cases dist
  simp [NormalDistribution2.summarize, npdot]

/-- Folding `summarize` over a list of weighted batches equals one
`summarize` over the concatenated data and weights. -/
theorem foldl_summarize_eq (batches : List (List ℚ × List ℚ)) :
    ∀ dist : NormalDistribution2, (∀ b ∈ batches, b.1.length = b.2.length) →
      batches.foldl (fun acc b => acc.summarize b.1 (some b.2)) dist
        = dist.summarize (batches.map Prod.fst).flatten
            (some (batches.map Prod.snd).flatten) := by
  induction batches with
  | nil => intro dist _; simpa using (summarize_nil dist).symm
  | cons b bs ih =>
      intro dist h
      have hb : b.1.length = b.2.length := h b (List.mem_cons_self b bs)
      have hrest : ∀ x ∈ bs, x.1.length = x.2.length :=
        fun x hx => h x (List.mem_cons_of_mem b hx)
      simp only [List.foldl_cons, List.map_cons, List.flatten_cons]
      rw [ih (dist.summarize b.1 (some b.2)) hrest,
        summarize_summarize dist b.1 b.2 _ _ hb]

/-- Claim C1: summarizing a dataset batch by batch accumulates exactly the
triple (sum of weights, weighted sum, weighted sum of squares) obtained by
one `summarize` over the concatenation of the batches, and the subsequent
`from_summaries` therefore produces the same parameters.  Stated for
`NormalDistribution2`, whose batch weights must match their data in
length (numpy's `dot` requires it). -/
theorem claim1_summarize_additive (dist : NormalDistribution2)
    (batches : List (List ℚ × List ℚ))
    (h : ∀ b ∈ batches, b.1.length = b.2.length) :
    (batches.foldl (fun acc b => acc.summarize b.1 (some b.2)) dist).summaries
      = (dist.summarize (batches.map Prod.fst).flatten
          (some (batches.map Prod.snd).flatten)).summaries
    ∧ ((batches.foldl (fun acc b => acc.summarize b.1 (some b.2)) dist).from_summaries 0).parameters
      = ((dist.summarize (batches.map Prod.fst).flatten
          (some (batches.map Prod.snd).flatten)).from_summaries 0).parameters := by
  rw [foldl_summarize_eq batches dist h]
  exact ⟨rfl, rfl⟩

/-- Witness for C1 at the batches ([1,2] weighted [1,1]) and ([3]
weighted [2]) starting from a blank distribution. -/
theorem claim1_summarize_additive_witness :
    (∀ b ∈ ([([1, 2], [1, 1]), ([3], [2])] : List (List ℚ × List ℚ)),
        b.1.length = b.2.length)
    ∧ (([([1, 2], [1, 1]), ([3], [2])] : List (List ℚ × List ℚ)).foldl
          (fun acc b => acc.summarize b.1 (some b.2)) NormalDistribution2.blank).summaries
      = (NormalDistribution2.blank.summarize
          ((([([1, 2], [1, 1]), ([3], [2])] : List (List ℚ × List ℚ)).map Prod.fst).flatten)
          (some ((([([1, 2], [1, 1]), ([3], [2])] : List (List ℚ × List ℚ)).map Prod.snd).flatten))).summaries :=
  ⟨by decide, (claim1_summarize_additive NormalDistribution2.blank _ (by decide)).1⟩

/-- Claim C2 counterexample: after summarizing `[0, 2]` into
`NormalDistribution2(10, 1)`, `from_summaries(inertia=1/2)` sets `mu` to
the pure MLE `1`, not to the blend `1/2 * 10 + (1 - 1/2) * 1 = 11/2`
that the claim requires. -/
theorem claim2_inertia_counterexample :
    (((NormalDistribution2.init 10 1).summarize [0, 2] none).from_summaries (1/2)).mu
        = NPVal.fin 1
    ∧ (((NormalDistribution2.init 10 1).summarize [0, 2] none).from_summaries (1/2)).mu
        ≠ NPVal.fin (1/2 * 10 + (1 - 1/2) * 1) := by
  norm_num [NormalDistribution2.init, NormalDistribution2.summarize,
    NormalDistribution2.from_summaries, npdot, npdiv, List.replicate]

/-- Claim C2 as amended: `from_summaries` accepts an `inertia` argument
but never reads it, so the result is the pure MLE update regardless of
`inertia`, for both `NormalDistribution2` and `StudentTDistribution`. -/
theorem claim2_inertia_ignored :
    (∀ (dist : NormalDistribution2) (i j : ℚ),
        dist.from_summaries i = dist.from_summaries j)
    ∧ (∀ (dist : StudentTDistribution) (i j : ℚ),
        dist.from_summaries i = dist.from_summaries j) :=
  ⟨fun _ _ _ => rfl, fun _ _ _ => rfl⟩

/-- Claim C3 counterexample: on a pristine blank `NormalDistribution2`
(zero total weight) `from_summaries` does not fail with any error; it
returns normally with `mu` and `std` both NaN (`0/0` and its
propagation through the variance formula and `sqrt`). -/
theorem claim3_zero_weight_counterexample :
    (NormalDistribution2.blank.from_summaries 0).mu = NPVal.nan
    ∧ (NormalDistribution2.blank.from_summaries 0).std = NPRVal.nan :=
  ⟨rfl, rfl⟩

/-- Claim C3 as amended: on any accumulator holding zero statistics,
`from_summaries` silently produces NaN for both parameters instead of
raising an InsufficientDataError (no such error exists in the code). -/
theorem claim3_zero_weight_nan (dist : NormalDistribution2) (i : ℚ)
    (h : dist.summaries = (0, 0, 0)) :
    (dist.from_summaries i).mu = NPVal.nan
    ∧ (dist.from_summaries i).std = NPRVal.nan := by
  simp [NormalDistribution2.from_summaries, h, npdiv, npsub, npsqrt]

/-- Witness for the amended C3 at the blank distribution. -/
theorem claim3_zero_weight_nan_witness :
    NormalDistribution2.blank.summaries = (0, 0, 0)
    ∧ ((NormalDistribution2.blank.from_summaries 1).mu = NPVal.nan
        ∧ (NormalDistribution2.blank.from_summaries 1).std = NPRVal.nan) :=
  ⟨rfl, claim3_zero_weight_nan NormalDistribution2.blank 1 rfl⟩

/-- Claim C4: `log_probability` is a pure function of the current
parameters and the input.  Two instances with equal parameters (for the
Student T also equal `df`) but arbitrary accumulator contents return the
same log-probability, and `summarize` never changes the result of a
subsequent `log_probability` call. -/
theorem claim4_logp_pure :
    (∀ (d1 d2 : NormalDistribution2) (x : ℚ), d1.mu = d2.mu → d1.std = d2.std →
        d1.log_probability x = d2.log_probability x)
    ∧ (∀ (dist : NormalDistribution2) (X : List ℚ) (w : Option (List ℚ)) (x : ℚ),
        (dist.summarize X w).log_probability x = dist.log_probability x)
    ∧ (∀ (t1 t2 : StudentTDistribution) (x : ℚ),
        t1.mu = t2.mu → t1.std = t2.std → t1.df = t2.df →
        t1.log_probability x = t2.log_probability x)
    ∧ (∀ (dist : StudentTDistribution) (X : List ℚ) (w : Option (List ℚ)) (x : ℚ),
        (dist.summarize X w).log_probability x = dist.log_probability x) := by
  refine ⟨fun d1 d2 x hmu hstd => ?_, fun _ _ _ _ => rfl,
    fun t1 t2 x hmu hstd hdf => ?_, fun _ _ _ _ => rfl⟩
  · simp only [NormalDistribution2.log_probability, hmu, hstd]
  · simp only [StudentTDistribution.log_probability, hmu, hstd, hdf]

/-- Witness for C4: summarizing does not change the log-probability of a
concrete normal instance, via the parameter-purity direction. -/
theorem claim4_logp_pure_witness :
    ((NormalDistribution2.init 3 2).summarize [5] none).log_probability 1
      = (NormalDistribution2.init 3 2).log_probability 1 :=
  claim4_logp_pure.1 ((NormalDistribution2.init 3 2).summarize [5] none)
    (NormalDistribution2.init 3 2) 1 rfl rfl

/-- Claim C5: `from_summaries` leaves the accumulator in exactly the
state `clear_summaries` produces (the zero triple), so a subsequent
`summarize` accumulates from zero just as on a blank instance. -/
theorem claim5_from_summaries_clears :
    ∀ (dist : NormalDistribution2) (i j : ℚ),
      (dist.from_summaries i).summaries = (dist.clear_summaries j).summaries
      ∧ (dist.from_summaries i).summaries = (0, 0, 0)
      ∧ ∀ (X : List ℚ) (w : Option (List ℚ)),
          ((dist.from_summaries i).summarize X w).summaries
            = (NormalDistribution2.blank.summarize X w).summaries :=
  fun _ _ _ => ⟨rfl, rfl, fun _ _ => rfl⟩

/-- Claim C10: `StudentTDistribution.from_summaries` updates only `mu`,
`std`, the `parameters` tuple and the (cleared) accumulator; the
degrees-of-freedom field `df` (and the dimensionality `d`) are unchanged,
whatever was summarized before. -/
theorem claim10_df_unchanged :
    ∀ (dist : StudentTDistribution) (i : ℚ),
      (dist.from_summaries i).df = dist.df
      ∧ (dist.from_summaries i).d = dist.d
      ∧ (dist.from_summaries i).summaries = (0, 0, 0)
      ∧ ∀ (X : List ℚ) (w : Option (List ℚ)),
          ((dist.summarize X w).from_summaries i).df = dist.df :=
  fun _ _ => ⟨rfl, rfl, rfl, fun _ _ => rfl⟩

/-- Interface of a pomegranate distribution as duck-typed by
`BlockGaussianDistribution`: the dimensionality attribute `d` and the
`log_probability` / `summarize` / `from_summaries` methods of a
sub-distribution with state type `S` (the Python class accepts any
objects providing these). `log_probability` and `summarize` act on the
column slice assigned to the sub-distribution; `summarize` receives the
sliced rows together with the weight vector. -/
structure DistClass (S : Type) where
  d : S → ℕ
  log_probability : S → List ℚ → ℝ
  summarize : S → List (List ℚ) → Option (List ℚ) → S
  from_summaries : S → ℚ → S

/-- State of the tutorial's `BlockGaussianDistribution`: just the list of
sub-distributions (the class stores no accumulator of its own). -/
structure BlockGaussianDistribution (S : Type) where
  distributions : List S

/-- Attribute `BlockGaussianDistribution.d`: the sum of the
sub-distribution dimensions, as set in `__init__`. -/
def BlockGaussianDistribution.d {S : Type} (C : DistClass S)
    (b : BlockGaussianDistribution S) : ℕ :=
  (b.distributions.map C.d).sum

/-- Loop body of `BlockGaussianDistribution.log_probability`: running
offset `i`, adding each sub-distribution's log-probability of the column
slice `x[i : i + dist.d]` of the sample. -/
def BlockGaussianDistribution.logpLoop {S : Type} (C : DistClass S) :
    List S → ℕ → List ℚ → ℝ
  | [], _, _ => 0
  | dist :: rest, i, x =>
      C.log_probability dist ((x.drop i).take (C.d dist))
        + BlockGaussianDistribution.logpLoop C rest (i + C.d dist) x

/-- Method `BlockGaussianDistribution.log_probability` on one sample. -/
def BlockGaussianDistribution.log_probability {S : Type} (C : DistClass S)
    (b : BlockGaussianDistribution S) (x : List ℚ) : ℝ :=
  BlockGaussianDistribution.logpLoop C b.distributions 0 x

/-- Loop body of `BlockGaussianDistribution.summarize`: each
sub-distribution summarizes the column slice `X[:, i : i + dist.d]` with
the unchanged weight vector `w`. -/
def BlockGaussianDistribution.summLoop {S : Type} (C : DistClass S) :
    List S → ℕ → List (List ℚ) → Option (List ℚ) → List S
  | [], _, _, _ => []
  | dist :: rest, i, X, w =>
      C.summarize dist (X.map (fun row => (row.drop i).take (C.d dist))) w
        :: BlockGaussianDistribution.summLoop C rest (i + C.d dist) X w

/-- Method `BlockGaussianDistribution.summarize`. -/
def BlockGaussianDistribution.summarize {S : Type} (C : DistClass S)
    (b : BlockGaussianDistribution S) (X : List (List ℚ))
    (w : Option (List ℚ)) : BlockGaussianDistribution S :=
  ⟨BlockGaussianDistribution.summLoop C b.distributions 0 X w⟩

/-- Method `BlockGaussianDistribution.from_summaries`: delegates to every
sub-distribution with the same inertia. -/
def BlockGaussianDistribution.from_summaries {S : Type} (C : DistClass S)
    (b : BlockGaussianDistribution S) (inertia : ℚ) :
    BlockGaussianDistribution S :=
  ⟨b.distributions.map (fun dist => C.from_summaries dist inertia)⟩

/-- Statement vocabulary: the contiguous slices of a sample cut by a list
of dimensions, in order. -/
def slicesByDims : List ℕ → List ℚ → List (List ℚ)
  | [], _ => []
  | n :: rest, x => x.take n :: slicesByDims rest (x.drop n)

/-- Statement vocabulary: the contiguous column blocks of a data matrix
cut by a list of dimensions, in order. -/
def columnsByDims : List ℕ → List (List ℚ) → List (List (List ℚ))
  | [], _ => []
  | n :: rest, X => X.map (·.take n) :: columnsByDims rest (X.map (·.drop n))

/-- The slices cut by a dimension list concatenate back to the sample
when the sample has exactly the summed length (no gap, no overlap). -/
theorem slicesByDims_flatten (ds : List ℕ) :
    ∀ x : List ℚ, x.length = ds.sum → (slicesByDims ds x).flatten = x := by
  induction ds with
  | nil =>
      intro x hx
      simp only [List.sum_nil] at hx
      simp [slicesByDims, List.length_eq_zero.mp hx]
  | cons n rest ih =>
      intro x hx
      simp only [slicesByDims, List.flatten_cons]
      rw [ih (x.drop n) (by simp [hx, List.sum_cons]), List.take_append_drop]

/-- Each slice cut by a dimension list has exactly its assigned length
when the sample has the summed length. -/
theorem slicesByDims_length (ds : List ℕ) :
    ∀ x : List ℚ, x.length = ds.sum →
      (slicesByDims ds x).map List.length = ds := by
  induction ds with
  | nil => intro x _; simp [slicesByDims]
  | cons n rest ih =>
      intro x hx
      simp only [List.sum_cons] at hx
      simp only [slicesByDims, List.map_cons, List.length_take, List.cons.injEq]
      exact ⟨by omega, ih (x.drop n) (by simp [hx])⟩

/-- The log-probability loop at offset `i` computes the sum of
sub-distribution log-probabilities over the slices of the sample's tail
from `i`. -/
theorem logpLoop_eq_sum {S : Type} (C : DistClass S) (l : List S) (x : List ℚ) :
    ∀ i : ℕ,
      BlockGaussianDistribution.logpLoop C l i x
        = ((l.zip (slicesByDims (l.map C.d) (x.drop i))).map
            (fun p => C.log_probability p.1 p.2)).sum := by
  induction l with
  | nil => intro i; simp [BlockGaussianDistribution.logpLoop, slicesByDims]
  | cons dist rest ih =>
      intro i
      simp only [BlockGaussianDistribution.logpLoop, List.map_cons, slicesByDims,
        List.zip_cons_cons, List.sum_cons]
      rw [ih (i + C.d dist), List.drop_drop]

/-- The summarize loop at offset `i` delegates to each sub-distribution
the matching column block of the matrix's columns from `i` on. -/
theorem summLoop_eq_zip {S : Type} (C : DistClass S) (l : List S)
    (X : List (List ℚ)) (w : Option (List ℚ)) :
    ∀ i : ℕ,
      BlockGaussianDistribution.summLoop C l i X w
        = ((l.zip (columnsByDims (l.map C.d) (X.map (·.drop i)))).map
            (fun p => C.summarize p.1 p.2 w)) := by
  induction l with
  | nil => intro i; simp [BlockGaussianDistribution.summLoop, columnsByDims]
  | cons dist rest ih =>
      intro i
      simp only [BlockGaussianDistribution.summLoop, List.map_cons, columnsByDims,
        List.zip_cons_cons, List.map_map, List.cons.injEq]
      refine ⟨rfl, ?_⟩
      rw [ih (i + C.d dist)]
      have hf : (fun row : List ℚ => List.drop (i + C.d dist) row)
          = ((fun row : List ℚ => List.drop (C.d dist) row)
              ∘ fun row : List ℚ => List.drop i row) := by
        funext row
        simp [List.drop_drop, Nat.add_comm]
      rw [hf]

/-- Claim C6: for a block distribution over sub-distributions of
dimensions `d_1..d_k` and a sample of total dimension `d_1+...+d_k`, the
contiguous slices assigned at construction partition the sample exactly
(they concatenate back to it with the assigned lengths — no gaps, no
overlap); `log_probability` is the sum of the sub-distributions'
log-probabilities on their slices, `summarize` delegates the matching
column blocks with the weight vector unchanged, and `from_summaries`
delegates to every sub-distribution; the block layer holds no accumulator
of its own (its whole state is the sub-distribution list). -/
theorem claim6_block_structure {S : Type} (C : DistClass S)
    (b : BlockGaussianDistribution S) (x : List ℚ)
    (h : x.length = BlockGaussianDistribution.d C b) :
    ((slicesByDims (b.distributions.map C.d) x).flatten = x
      ∧ (slicesByDims (b.distributions.map C.d) x).map List.length
          = b.distributions.map C.d)
    ∧ BlockGaussianDistribution.log_probability C b x
        = ((b.distributions.zip (slicesByDims (b.distributions.map C.d) x)).map
            (fun p => C.log_probability p.1 p.2)).sum
    ∧ (∀ (X : List (List ℚ)) (w : Option (List ℚ)),
        (BlockGaussianDistribution.summarize C b X w).distributions
          = ((b.distributions.zip (columnsByDims (b.distributions.map C.d) X)).map
              (fun p => C.summarize p.1 p.2 w)))
    ∧ (∀ i : ℚ, (BlockGaussianDistribution.from_summaries C b i).distributions
        = b.distributions.map (fun dist => C.from_summaries dist i)) := by
  refine ⟨⟨slicesByDims_flatten _ x h, slicesByDims_length _ x h⟩, ?_, ?_, fun i => rfl⟩
  · have := logpLoop_eq_sum C b.distributions x 0
    simpa [BlockGaussianDistribution.log_probability] using this
  · intro X w
    have := summLoop_eq_zip C b.distributions X w 0
    simpa [BlockGaussianDistribution.summarize] using this

/-- A concrete sub-distribution interface used to witness C6: state is a
single rational, every sub-distribution is one-dimensional. -/
def witnessDistClass : DistClass ℚ where
  d := fun _ => 1
  log_probability := fun s x => (s : ℝ) + (x.length : ℝ)
  summarize := fun s X _ => s + (X.length : ℚ)
  from_summaries := fun s _ => s

/-- Witness for C6 at a two-component block over one-dimensional
sub-distributions and the sample `[5, 7]`. -/
theorem claim6_block_structure_witness :
    ([(5 : ℚ), 7].length
        = BlockGaussianDistribution.d witnessDistClass ⟨[(2 : ℚ), 3]⟩)
    ∧ BlockGaussianDistribution.log_probability witnessDistClass
        ⟨[(2 : ℚ), 3]⟩ [5, 7]
      = ((([(2 : ℚ), 3]).zip (slicesByDims (([(2 : ℚ), 3]).map
            witnessDistClass.d) [5, 7])).map
          (fun p => witnessDistClass.log_probability p.1 p.2)).sum :=
  ⟨rfl, (claim6_block_structure witnessDistClass ⟨[2, 3]⟩ [5, 7] rfl).2.1⟩

/-- Modelled from the spec: the `DiscreteDistribution` implementation is
library code absent from the source files; the Probability Distributions
notebook specifies a dictionary from symbols (arbitrary objects) to their
probabilities, with items not present evaluating to probability 0.0 /
log-probability negative infinity rather than failing.  The dictionary is
modelled as an association list. -/
structure DiscreteDistribution (α : Type) where
  params : List (α × ℚ)

/-- Modelled from the spec: `DiscreteDistribution.probability` looks the
symbol up in the map and returns 0 when it is absent. -/
def DiscreteDistribution.probability {α : Type} [DecidableEq α]
    (dist : DiscreteDistribution α) (x : α) : ℚ :=
  match dist.params.find? (fun p => decide (p.1 = x)) with
  | some p => p.2
  | none => 0

/-- Modelled from the spec: `DiscreteDistribution.log_probability` is the
log of the stored probability, negative infinity when that probability is
zero (in particular for unseen symbols). -/
noncomputable def DiscreteDistribution.log_probability {α : Type} [DecidableEq α]
    (dist : DiscreteDistribution α) (x : α) : NPRVal :=
  if dist.probability x = 0 then .ninf
  else .fin (Real.log ((dist.probability x : ℚ) : ℝ))

/-- Claim C7: evaluating a `DiscreteDistribution` at a symbol outside its
support map returns probability exactly 0 and log-probability negative
infinity without failing (both methods are total); in particular the
tutorial's A/C/G/T distribution gives probability 0 to `?`. -/
theorem claim7_unseen_symbol :
    (∀ (α : Type) [DecidableEq α] (dist : DiscreteDistribution α) (x : α),
        (∀ p ∈ dist.params, p.1 ≠ x) →
          dist.probability x = 0 ∧ dist.log_probability x = NPRVal.ninf)
    ∧ DiscreteDistribution.probability
        ⟨[('A', 1/10), ('C', 1/4), ('G', 1/2), ('T', 3/20)]⟩ '?' = 0 := by
  refine ⟨?_, by decide⟩
  intro α _ dist x h
  have hfind : dist.params.find? (fun p => decide (p.1 = x)) = none :=
    List.find?_eq_none.mpr (fun p hp => by simpa using h p hp)
  have hprob : dist.probability x = 0 := by
    simp [DiscreteDistribution.probability, hfind]
  exact ⟨hprob, by simp [DiscreteDistribution.log_probability, hprob]⟩

/-- Witness for C7 at the tutorial's A/C/G/T distribution and the unseen
symbol `?`. -/
theorem claim7_unseen_symbol_witness :
    (∀ p ∈ ([('A', 1/10), ('C', 1/4), ('G', 1/2), ('T', 3/20)] : List (Char × ℚ)),
        p.1 ≠ '?')
    ∧ (DiscreteDistribution.probability
          ⟨[('A', 1/10), ('C', 1/4), ('G', 1/2), ('T', 3/20)]⟩ '?' = 0
        ∧ DiscreteDistribution.log_probability
          ⟨[('A', 1/10), ('C', 1/4), ('G', 1/2), ('T', 3/20)]⟩ '?' = NPRVal.ninf) :=
  ⟨by decide, claim7_unseen_symbol.1 Char
      ⟨[('A', 1/10), ('C', 1/4), ('G', 1/2), ('T', 3/20)]⟩ '?' (by decide)⟩

/-- Modelled from the spec: lookup of a shard index among the
(index, shard) results reported by the workers, first match wins. -/
def lookupShard (i : ℕ) : List (ℕ × (List ℚ × List ℚ)) → Option (List ℚ × List ℚ)
  | [] => none
  | r :: rest => if r.1 = i then some r.2 else lookupShard i rest

/-- Modelled from the spec: the sufficient-statistics triple produced by
a private accumulator clone of the distribution on one (data, weights)
shard — the clone starts cleared, summarizes its shard and reports its
accumulator. -/
def shardAccumulator (dist : NormalDistribution2)
    (shard : List ℚ × List ℚ) : ℚ × ℚ × ℚ :=
  ((dist.clear_summaries 0).summarize shard.1 (some shard.2)).summaries

/-- Modelled from the spec: elementwise addition of two accumulator
triples (the merge step). -/
def mergeTriples (a b : ℚ × ℚ × ℚ) : ℚ × ℚ × ℚ :=
  (a.1 + b.1, a.2.1 + b.2.1, a.2.2 + b.2.2)

/-- Modelled from the spec (§5): one data-parallel summarize-merge-update
cycle over `k` shards.  `arrival` lists the (shard index, shard) results
in worker completion order; the merge walks shard indices `0..k-1` in
order (not arrival order), adds each shard's private accumulator
elementwise into the distribution's accumulator, and a single serial
`from_summaries` follows. -/
noncomputable def parallelCycle (dist : NormalDistribution2) (k : ℕ)
    (arrival : List (ℕ × (List ℚ × List ℚ))) (inertia : ℚ) :
    NormalDistribution2 :=
  let ordered := (List.range k).filterMap (fun i => lookupShard i arrival)
  let merged := ordered.foldl
    (fun acc shard => mergeTriples acc (shardAccumulator dist shard))
    dist.summaries
  NormalDistribution2.from_summaries { dist with summaries := merged } inertia

/-- Index lookup is invariant under permuting the workers' completion
order, as long as the shard indices are distinct. -/
theorem lookupShard_perm {l1 l2 : List (ℕ × (List ℚ × List ℚ))}
    (hperm : l1.Perm l2) :
    (l1.map Prod.fst).Nodup → ∀ i, lookupShard i l1 = lookupShard i l2 := by
  induction hperm with
  | nil => intro _ i; rfl
  | cons x p ih =>
      intro hnd i
      simp only [List.map_cons, List.nodup_cons] at hnd
      simp only [lookupShard, ih hnd.2 i]
  | swap x y l =>
      intro hnd i
      simp only [List.map_cons, List.nodup_cons, List.mem_cons] at hnd
      have hxy : y.1 ≠ x.1 := fun h => hnd.1 (Or.inl h)
      simp only [lookupShard]
      by_cases h1 : y.1 = i <;> by_cases h2 : x.1 = i <;> simp [h1, h2]
      exact absurd (h1.trans h2.symm) hxy
  | trans p q ih1 ih2 =>
      intro hnd i
      rw [ih1 hnd i, ih2 ((p.map Prod.fst).nodup_iff.mp hnd) i]

/-- Filtering-and-mapping with pointwise-equal functions gives equal
lists. -/
theorem filterMap_congr_mem {α β : Type} {l : List α} {f g : α → Option β}
    (h : ∀ a ∈ l, f a = g a) : l.filterMap f = l.filterMap g := by
  induction l with
  | nil => rfl
  | cons a l ih =>
      simp only [List.filterMap_cons, h a (List.mem_cons_self a l),
        ih (fun x hx => h x (List.mem_cons_of_mem a hx))]

/-- Walking the shard indices in order over the enumerated shard list
recovers exactly the shard list. -/
theorem range_filterMap_lookup_enumFrom (shards : List (List ℚ × List ℚ)) :
    ∀ n, (List.range' n shards.length).filterMap
        (fun j => lookupShard j (List.enumFrom n shards)) = shards := by
  induction shards with
  | nil => intro n; simp
  | cons s rest ih =>
      intro n
      have hhead : lookupShard n (List.enumFrom n (s :: rest)) = some s := by
        simp [List.enumFrom, lookupShard]
      have htail : ∀ j ∈ List.range' (n + 1) rest.length,
          lookupShard j (List.enumFrom n (s :: rest))
            = lookupShard j (List.enumFrom (n + 1) rest) := by
        intro j hj
        have hj' : n + 1 ≤ j := (List.mem_range'_1.mp hj).1
        have hne : ¬ (n = j) := by omega
        simp [List.enumFrom, lookupShard, hne]
      simp only [List.length_cons, List.range'_succ, List.filterMap_cons, hhead]
      rw [filterMap_congr_mem htail, ih (n + 1)]

/-- The accumulator reported by a private shard clone does not depend on
the distribution it was cloned from. -/
theorem shardAccumulator_eq (dist : NormalDistribution2)
    (shard : List ℚ × List ℚ) :
    shardAccumulator dist shard
      = (shard.2.sum, npdot shard.1 shard.2, npdot (shard.1.map (· ^ 2)) shard.2) := by
  simp [shardAccumulator, NormalDistribution2.clear_summaries,
    NormalDistribution2.summarize]

/-- Serial batch-by-batch summarizing is the same state change as merging
the shards' private accumulators elementwise into the starting
accumulator. -/
theorem foldl_summarize_as_merge (shards : List (List ℚ × List ℚ)) :
    ∀ dist : NormalDistribution2,
      shards.foldl (fun acc s => acc.summarize s.1 (some s.2)) dist
        = { dist with
            summaries := shards.foldl
              (fun t s => mergeTriples t (shardAccumulator dist s))
              dist.summaries } := by
  induction shards with
  | nil => intro dist; rfl
  | cons s rest ih =>
      intro dist
      simp only [List.foldl_cons]
      rw [ih (dist.summarize s.1 (some s.2))]
      have hstart : (dist.summarize s.1 (some s.2)).summaries
          = mergeTriples dist.summaries (shardAccumulator dist s) := by
        simp [NormalDistribution2.summarize, mergeTriples, shardAccumulator_eq]
      have hfun : (fun t sh => mergeTriples t
            (shardAccumulator (dist.summarize s.1 (some s.2)) sh))
          = fun t sh => mergeTriples t (shardAccumulator dist sh) := by
        funext t sh
        rw [shardAccumulator_eq, shardAccumulator_eq]
      rw [hfun, hstart]
      rfl

/-- Claim C9: with fixed shard boundaries, the data-parallel
summarize-merge-update cycle is deterministic — any two worker completion
orders (permutations of the indexed shard list) produce identical
results, because private shard accumulators are merged in shard-index
order before the single serial `from_summaries`; the merged run moreover
equals the serial batch-by-batch run (the additivity invariant), and in
particular every post-update log-probability (hence any predict_proba
style output) is identical across runs. -/
theorem claim9_parallel_determinism (dist : NormalDistribution2)
    (shards : List (List ℚ × List ℚ))
    (a1 a2 : List (ℕ × (List ℚ × List ℚ))) (inertia : ℚ)
    (h1 : a1.Perm shards.enum) (h2 : a2.Perm shards.enum) :
    parallelCycle dist shards.length a1 inertia
        = parallelCycle dist shards.length a2 inertia
    ∧ parallelCycle dist shards.length a1 inertia
        = (shards.foldl (fun acc s => acc.summarize s.1 (some s.2)) dist).from_summaries
            inertia
    ∧ ∀ x : ℚ, (parallelCycle dist shards.length a1 inertia).log_probability x
        = (parallelCycle dist shards.length a2 inertia).log_probability x := by
  have hnd : (shards.enum.map Prod.fst).Nodup := by
    rw [List.enum_map_fst]
    exact List.nodup_range _
  have key : ∀ a : List (ℕ × (List ℚ × List ℚ)), a.Perm shards.enum →
      parallelCycle dist shards.length a inertia
        = (shards.foldl (fun acc s => acc.summarize s.1 (some s.2)) dist).from_summaries
            inertia := by
    intro a ha
    have hl : ∀ i, lookupShard i a = lookupShard i shards.enum :=
      lookupShard_perm ha (((ha.map Prod.fst).nodup_iff).mpr hnd)
    simp only [parallelCycle]
    rw [filterMap_congr_mem (fun i _ => hl i), List.range_eq_range',
      show shards.enum = List.enumFrom 0 shards from rfl,
      range_filterMap_lookup_enumFrom shards 0,
      foldl_summarize_as_merge shards dist]
  refine ⟨(key a1 h1).trans (key a2 h2).symm, key a1 h1, fun x => ?_⟩
  rw [(key a1 h1).trans (key a2 h2).symm]

/-- Witness for C9: two shards arriving in order and in reversed order
give the same cycle result. -/
theorem claim9_parallel_determinism_witness :
    ([((0 : ℕ), ([(1 : ℚ)], [(1 : ℚ)])), (1, ([2], [1]))].Perm
        ([([(1 : ℚ)], [(1 : ℚ)]), ([2], [1])] : List (List ℚ × List ℚ)).enum)
    ∧ ([((1 : ℕ), ([(2 : ℚ)], [(1 : ℚ)])), (0, ([1], [1]))].Perm
        ([([(1 : ℚ)], [(1 : ℚ)]), ([2], [1])] : List (List ℚ × List ℚ)).enum)
    ∧ parallelCycle NormalDistribution2.blank 2
        [((0 : ℕ), ([(1 : ℚ)], [(1 : ℚ)])), (1, ([2], [1]))] 0
      = parallelCycle NormalDistribution2.blank 2
        [((1 : ℕ), ([(2 : ℚ)], [(1 : ℚ)])), (0, ([1], [1]))] 0 :=
  ⟨by decide, by decide,
    (claim9_parallel_determinism NormalDistribution2.blank
      [([1], [1]), ([2], [1])] _ _ 0 (by decide) (by decide)).1⟩

/-- Log-sum inequality used for EM monotonicity: for positive weights
summing to 1 and positive values, the weighted log of value ratios is at
most the log of the value sum (Jensen for the concave logarithm). -/
theorem emGibbs {A : Type} (t : Finset A) (p q : A → ℝ)
    (hp : ∀ a ∈ t, 0 < p a) (hq : ∀ a ∈ t, 0 < q a)
    (hp1 : ∑ a ∈ t, p a = 1) :
    ∑ a ∈ t, p a * Real.log (q a / p a) ≤ Real.log (∑ a ∈ t, q a) := by
  have hne : t.Nonempty := by
    rcases Finset.eq_empty_or_nonempty t with h | h
    · rw [h] at hp1; simp at hp1
    · exact h
  set T : ℝ := ∑ a ∈ t, q a with hT
  have hTpos : 0 < T := Finset.sum_pos hq hne
  have hstep : ∀ a ∈ t,
      p a * Real.log (q a / p a) ≤ q a / T - p a + p a * Real.log T := by
    intro a ha
    have hpa := hp a ha
    have hqa := hq a ha
    have h1 : Real.log (q a / p a)
        = Real.log (q a / (p a * T)) + Real.log T := by
      rw [← Real.log_mul (by positivity) (ne_of_gt hTpos)]
      congr 1
      field_simp
      ring
    have h2 : Real.log (q a / (p a * T)) ≤ q a / (p a * T) - 1 :=
      Real.log_le_sub_one_of_pos (by positivity)
    have h3 : p a * Real.log (q a / (p a * T)) ≤ p a * (q a / (p a * T) - 1) :=
      mul_le_mul_of_nonneg_left h2 (le_of_lt hpa)
    have h4 : p a * (q a / (p a * T) - 1) = q a / T - p a := by
      field_simp
      ring
    calc p a * Real.log (q a / p a)
        = p a * Real.log (q a / (p a * T)) + p a * Real.log T := by rw [h1]; ring
      _ ≤ p a * (q a / (p a * T) - 1) + p a * Real.log T := by linarith
      _ = q a / T - p a + p a * Real.log T := by rw [h4]
  calc ∑ a ∈ t, p a * Real.log (q a / p a)
      ≤ ∑ a ∈ t, (q a / T - p a + p a * Real.log T) := Finset.sum_le_sum hstep
    _ = (∑ a ∈ t, q a) / T - (∑ a ∈ t, p a)
          + (∑ a ∈ t, p a) * Real.log T := by
        rw [Finset.sum_add_distrib, Finset.sum_sub_distrib, ← Finset.sum_div,
          ← Finset.sum_mul]
    _ = Real.log T := by
        rw [hp1, ← hT, div_self (ne_of_gt hTpos)]
        ring

/-- M-step optimality for weighted log scores: positive weights score at
least as well against their own normalization as against any
sub-probability vector. -/
theorem emMaxQ {A : Type} (t : Finset A) (c q : A → ℝ)
    (hc : ∀ a ∈ t, 0 < c a) (hq : ∀ a ∈ t, 0 < q a)
    (hq1 : ∑ a ∈ t, q a ≤ 1) (hne : t.Nonempty) :
    ∑ a ∈ t, c a * Real.log (q a)
      ≤ ∑ a ∈ t, c a * Real.log (c a / ∑ b ∈ t, c b) := by
  set C : ℝ := ∑ b ∈ t, c b with hC
  have hCpos : 0 < C := Finset.sum_pos hc hne
  have hgibbs := emGibbs t (fun a => c a / C) q
    (fun a ha => div_pos (hc a ha) hCpos) hq
    (by rw [← Finset.sum_div, ← hC, div_self (ne_of_gt hCpos)])
  have hlog1 : Real.log (∑ a ∈ t, q a) ≤ 0 :=
    Real.log_nonpos (le_of_lt (Finset.sum_pos hq hne)) hq1
  have hexp : ∀ a ∈ t,
      (c a / C) * Real.log (q a / (c a / C))
        = (c a / C) * Real.log (q a) - (c a / C) * Real.log (c a / C) := by
    intro a ha
    rw [Real.log_div (ne_of_gt (hq a ha)) (ne_of_gt (div_pos (hc a ha) hCpos))]
    ring
  rw [Finset.sum_congr rfl hexp, Finset.sum_sub_distrib] at hgibbs
  have hkey : ∑ a ∈ t, (c a / C) * Real.log (q a)
      ≤ ∑ a ∈ t, (c a / C) * Real.log (c a / C) := by linarith
  have hmul := mul_le_mul_of_nonneg_left hkey (le_of_lt hCpos)
  rw [Finset.mul_sum, Finset.mul_sum] at hmul
  have hsimp : ∀ (f : A → ℝ), ∀ a ∈ t, C * ((c a / C) * f a) = c a * f a := by
    intro f a ha
    field_simp
  calc ∑ a ∈ t, c a * Real.log (q a)
      = ∑ a ∈ t, C * ((c a / C) * Real.log (q a)) :=
        (Finset.sum_congr rfl (hsimp (fun a => Real.log (q a)))).symm
    _ ≤ ∑ a ∈ t, C * ((c a / C) * Real.log (c a / C)) := hmul
    _ = ∑ a ∈ t, c a * Real.log (c a / C) :=
        Finset.sum_congr rfl (hsimp (fun a => Real.log (c a / C)))

/-- Modelled from the spec: the EM trainer and mixture engine (§4.3,
§4.4) are library code absent from the source files.  State of a
`K`-component mixture over symbols `ι`: the prior weight of each
component and each component's categorical probability mass function. -/
structure MixtureState (K : ℕ) (ι : Type) where
  priors : Fin K → ℝ
  comp : Fin K → ι → ℝ

/-- Modelled from the spec: likelihood of one sample under the mixture,
`∑ k, prior[k] * P_k(x)`. -/
noncomputable def mixLik {K : ℕ} {ι : Type} (s : MixtureState K ι) (x : ι) : ℝ :=
  ∑ k, s.priors k * s.comp k x

/-- Modelled from the spec: total log-likelihood of a dataset, recomputed
at each EM iteration boundary. -/
noncomputable def logLikelihood {K : ℕ} {ι : Type} (s : MixtureState K ι)
    (xs : List ι) : ℝ :=
  (xs.map (fun x => Real.log (mixLik s x))).sum

/-- Modelled from the spec: per-sample per-component responsibility
`r[i][k] = prior[k] * P_k(x_i) / ∑ k', prior[k'] * P_k'(x_i)` (the spec
computes this in log space through logsumexp; the value is the same). -/
noncomputable def resp {K : ℕ} {ι : Type} (s : MixtureState K ι) (x : ι) (k : Fin K) : ℝ :=
  s.priors k * s.comp k x / mixLik s x

/-- Modelled from the spec: the total responsibility mass a component
receives from the dataset (its summarized weight total). -/
noncomputable def respSum {K : ℕ} {ι : Type} (s : MixtureState K ι) (xs : List ι)
    (k : Fin K) : ℝ :=
  (xs.map (fun x => resp s x k)).sum

/-- Modelled from the spec: one EM iteration of §4.3 — summarize each
component with the responsibilities as weights, then `from_summaries`:
priors become mean responsibility `∑ i r[i][k] / N`, and each categorical
component becomes its weighted maximum-likelihood estimate (weighted
symbol frequency). -/
noncomputable def emStep {K : ℕ} {ι : Type} [DecidableEq ι]
    (s : MixtureState K ι) (xs : List ι) : MixtureState K ι where
  priors := fun k => respSum s xs k / (xs.length : ℝ)
  comp := fun k y =>
    (xs.map (fun x => if x = y then resp s x k else 0)).sum / respSum s xs k

/-- Sums over a list of componentwise finite sums commute. -/
theorem list_map_finset_sum {K : ℕ} {β : Type} (xs : List β)
    (f : β → Fin K → ℝ) :
    (xs.map (fun x => ∑ k, f x k)).sum = ∑ k, (xs.map (fun x => f x k)).sum := by
  induction xs with
  | nil => simp
  | cons x l ih => simp [ih, Finset.sum_add_distrib]

/-- Summing a map over a list groups into multiplicity-weighted sums over
the distinct elements. -/
theorem list_sum_map_count {ι : Type} [DecidableEq ι] (xs : List ι) (f : ι → ℝ) :
    (xs.map f).sum = ∑ y ∈ xs.toFinset, (xs.count y : ℝ) * f y := by
  rw [Finset.sum_list_map_count]
  simp [nsmul_eq_mul]

/-- Summing the values of one symbol over a list counts its occurrences. -/
theorem list_sum_if_eq_count {ι : Type} [DecidableEq ι] (xs : List ι) (y : ι)
    (g : ι → ℝ) :
    (xs.map (fun z => if z = y then g z else 0)).sum = (xs.count y : ℝ) * g y := by
  induction xs with
  | nil => simp
  | cons x l ih =>
      by_cases h : x = y
      · subst h
        simp only [List.map_cons, List.sum_cons, if_pos rfl, ih,
          List.count_cons_self]
        push_cast
        ring
      · simp only [List.map_cons, List.sum_cons, if_neg h, ih,
          List.count_cons_of_ne (fun hyx => h hyx.symm)]
        ring

/-- Mapped sums split over pointwise addition. -/
theorem list_map_add_sum {β : Type} (xs : List β) (f g : β → ℝ) :
    (xs.map (fun x => f x + g x)).sum = (xs.map f).sum + (xs.map g).sum := by
  induction xs with
  | nil => simp
  | cons x l ih => simp [ih]; ring

/-- Mapped sums split over pointwise subtraction. -/
theorem list_map_sub_sum {β : Type} (xs : List β) (f g : β → ℝ) :
    (xs.map (fun x => f x - g x)).sum = (xs.map f).sum - (xs.map g).sum := by
  induction xs with
  | nil => simp
  | cons x l ih => simp [ih]; ring

/-- Claim C8: one EM iteration of the modelled mixture trainer never
decreases the dataset's total log-likelihood.  Hypotheses: at least one
component, a nonempty dataset, strictly positive current priors and
component masses on the observed symbols, and current parameters forming
(sub-)probability vectors. -/
theorem claim8_em_monotone {K : ℕ} {ι : Type} [DecidableEq ι]
    (s : MixtureState K ι) (xs : List ι)
    (hK : 0 < K) (hne : xs ≠ [])
    (hπpos : ∀ k, 0 < s.priors k)
    (hπsum : ∑ k, s.priors k ≤ 1)
    (hppos : ∀ k, ∀ x ∈ xs, 0 < s.comp k x)
    (hpsum : ∀ k, ∑ y ∈ xs.toFinset, s.comp k y ≤ 1) :
    logLikelihood s xs ≤ logLikelihood (emStep s xs) xs := by
  have hKne : (Finset.univ : Finset (Fin K)).Nonempty :=
    ⟨⟨0, hK⟩, Finset.mem_univ _⟩
  have hZ : ∀ x ∈ xs, 0 < mixLik s x := fun x hx =>
    Finset.sum_pos (fun k _ => mul_pos (hπpos k) (hppos k x hx)) hKne
  have hr : ∀ x ∈ xs, ∀ k, 0 < resp s x k := fun x hx k =>
    div_pos (mul_pos (hπpos k) (hppos k x hx)) (hZ x hx)
  have hrsum : ∀ x ∈ xs, ∑ k, resp s x k = 1 := by
    intro x hx
    show ∑ k, s.priors k * s.comp k x / mixLik s x = 1
    rw [← Finset.sum_div]
    exact div_self (ne_of_gt (hZ x hx))
  have hNpos : (0 : ℝ) < (xs.length : ℝ) := by
    exact_mod_cast List.length_pos.mpr hne
  have hcpos : ∀ k, 0 < respSum s xs k := by
    intro k
    apply List.sum_pos
    · intro a ha
      obtain ⟨x, hx, rfl⟩ := List.mem_map.mp ha
      exact hr x hx k
    · simpa using hne
  have hπ' : ∀ k, 0 < (emStep s xs).priors k := fun k =>
    div_pos (hcpos k) hNpos
  have hw : ∀ (k : Fin K) (y : ι),
      (xs.map (fun x => if x = y then resp s x k else 0)).sum
        = (xs.count y : ℝ) * resp s y k :=
    fun k y => list_sum_if_eq_count xs y (fun z => resp s z k)
  have hcount : ∀ y ∈ xs, (0 : ℝ) < (xs.count y : ℝ) := fun y hy => by
    exact_mod_cast List.count_pos_iff.mpr hy
  have hp' : ∀ (k : Fin K), ∀ x ∈ xs, 0 < (emStep s xs).comp k x := by
    intro k x hx
    show 0 < (xs.map (fun z => if z = x then resp s z k else 0)).sum
        / respSum s xs k
    rw [hw k x]
    exact div_pos (mul_pos (hcount x hx) (hr x hx k)) (hcpos k)
  have hcsum : ∑ k, respSum s xs k = (xs.length : ℝ) := by
    rw [show (∑ k, respSum s xs k)
        = (xs.map (fun x => ∑ k, resp s x k)).sum from
      (list_map_finset_sum xs (fun x k => resp s x k)).symm]
    rw [List.map_congr_left (fun x hx => hrsum x hx)]
    simp [List.map_const']
  have hsample : ∀ x ∈ xs,
      Real.log (mixLik s x)
        + ∑ k, resp s x k
            * Real.log ((emStep s xs).priors k * (emStep s xs).comp k x
                / (s.priors k * s.comp k x))
      ≤ Real.log (mixLik (emStep s xs) x) := by
    intro x hx
    have hZx := hZ x hx
    have hZ'x : 0 < mixLik (emStep s xs) x :=
      Finset.sum_pos (fun k _ => mul_pos (hπ' k) (hp' k x hx)) hKne
    have hg := emGibbs Finset.univ (fun k => resp s x k)
      (fun k => (emStep s xs).priors k * (emStep s xs).comp k x / mixLik s x)
      (fun k _ => hr x hx k)
      (fun k _ => div_pos (mul_pos (hπ' k) (hp' k x hx)) hZx)
      (hrsum x hx)
    have hratio : ∀ k ∈ (Finset.univ : Finset (Fin K)),
        resp s x k
            * Real.log (((emStep s xs).priors k * (emStep s xs).comp k x
                / mixLik s x) / resp s x k)
          = resp s x k
            * Real.log ((emStep s xs).priors k * (emStep s xs).comp k x
                / (s.priors k * s.comp k x)) := by
      intro k _
      have ha : s.priors k * s.comp k x ≠ 0 :=
        ne_of_gt (mul_pos (hπpos k) (hppos k x hx))
      have hq : ((emStep s xs).priors k * (emStep s xs).comp k x
            / mixLik s x) / resp s x k
          = (emStep s xs).priors k * (emStep s xs).comp k x
            / (s.priors k * s.comp k x) := by
        have hZne : mixLik s x ≠ 0 := ne_of_gt hZx
        show ((emStep s xs).priors k * (emStep s xs).comp k x
            / mixLik s x) / (s.priors k * s.comp k x / mixLik s x) = _
        field_simp
      rw [hq]
    rw [Finset.sum_congr rfl hratio] at hg
    have hZsum : (∑ k, ((emStep s xs).priors k * (emStep s xs).comp k x
          / mixLik s x))
        = mixLik (emStep s xs) x / mixLik s x := by
      rw [← Finset.sum_div]
      rfl
    rw [hZsum, Real.log_div (ne_of_gt hZ'x) (ne_of_gt hZx)] at hg
    linarith
  have hLL : logLikelihood s xs
      + (xs.map (fun x => ∑ k, resp s x k
          * Real.log ((emStep s xs).priors k * (emStep s xs).comp k x
              / (s.priors k * s.comp k x)))).sum
      ≤ logLikelihood (emStep s xs) xs := by
    have h5 := List.sum_le_sum hsample
    rw [list_map_add_sum] at h5
    simpa [logLikelihood] using h5
  have hlogsplit : ∀ x ∈ xs, ∀ k : Fin K,
      Real.log ((emStep s xs).priors k * (emStep s xs).comp k x
          / (s.priors k * s.comp k x))
        = (Real.log ((emStep s xs).priors k) - Real.log (s.priors k))
          + (Real.log ((emStep s xs).comp k x) - Real.log (s.comp k x)) := by
    intro x hx k
    rw [Real.log_div (ne_of_gt (mul_pos (hπ' k) (hp' k x hx)))
        (ne_of_gt (mul_pos (hπpos k) (hppos k x hx))),
      Real.log_mul (ne_of_gt (hπ' k)) (ne_of_gt (hp' k x hx)),
      Real.log_mul (ne_of_gt (hπpos k)) (ne_of_gt (hppos k x hx))]
    ring
  have hJsplit : (xs.map (fun x => ∑ k, resp s x k
        * Real.log ((emStep s xs).priors k * (emStep s xs).comp k x
            / (s.priors k * s.comp k x)))).sum
      = (∑ k, respSum s xs k
            * (Real.log ((emStep s xs).priors k) - Real.log (s.priors k)))
        + ∑ k, (xs.map (fun x => resp s x k
            * (Real.log ((emStep s xs).comp k x) - Real.log (s.comp k x)))).sum := by
    have hmapeq : xs.map (fun x => ∑ k, resp s x k
          * Real.log ((emStep s xs).priors k * (emStep s xs).comp k x
              / (s.priors k * s.comp k x)))
        = xs.map (fun x =>
            (∑ k, resp s x k
              * (Real.log ((emStep s xs).priors k) - Real.log (s.priors k)))
            + ∑ k, resp s x k
              * (Real.log ((emStep s xs).comp k x) - Real.log (s.comp k x))) := by
      refine List.map_congr_left (fun x hx => ?_)
      rw [Finset.sum_congr rfl (fun k _ => by
        rw [hlogsplit x hx k, mul_add])]
      rw [Finset.sum_add_distrib]
    rw [hmapeq, list_map_add_sum]
    congr 1
    · rw [list_map_finset_sum]
      refine Finset.sum_congr rfl (fun k _ => ?_)
      rw [show (xs.map (fun x => resp s x k
            * (Real.log ((emStep s xs).priors k) - Real.log (s.priors k)))).sum
          = (xs.map (fun x => resp s x k)).sum
            * (Real.log ((emStep s xs).priors k) - Real.log (s.priors k)) from
        List.sum_map_mul_right xs (fun x => resp s x k) _]
      rfl
    · rw [list_map_finset_sum]
  have hT1 : 0 ≤ ∑ k, respSum s xs k
      * (Real.log ((emStep s xs).priors k) - Real.log (s.priors k)) := by
    have h := emMaxQ Finset.univ (fun k => respSum s xs k)
      (fun k => s.priors k) (fun k _ => hcpos k) (fun k _ => hπpos k)
      hπsum hKne
    have hrw : ∀ k ∈ (Finset.univ : Finset (Fin K)),
        respSum s xs k
            * Real.log (respSum s xs k / ∑ b, respSum s xs b)
          = respSum s xs k * Real.log ((emStep s xs).priors k) := by
      intro k _
      rw [hcsum]
      rfl
    rw [Finset.sum_congr rfl hrw] at h
    have hdist : ∑ k, respSum s xs k
        * (Real.log ((emStep s xs).priors k) - Real.log (s.priors k))
        = (∑ k, respSum s xs k * Real.log ((emStep s xs).priors k))
          - ∑ k, respSum s xs k * Real.log (s.priors k) := by
      rw [← Finset.sum_sub_distrib]
      exact Finset.sum_congr rfl (fun k _ => by ring)
    rw [hdist]
    linarith
  have hT2 : ∀ k : Fin K, 0 ≤ (xs.map (fun x => resp s x k
      * (Real.log ((emStep s xs).comp k x) - Real.log (s.comp k x)))).sum := by
    intro k
    have htne : xs.toFinset.Nonempty := by
      simp [List.toFinset_nonempty_iff, hne]
    have hwpos : ∀ y ∈ xs.toFinset, 0 < (xs.count y : ℝ) * resp s y k := by
      intro y hy
      have hy' := List.mem_toFinset.mp hy
      exact mul_pos (hcount y hy') (hr y hy' k)
    have hwsum : ∑ y ∈ xs.toFinset, (xs.count y : ℝ) * resp s y k
        = respSum s xs k :=
      (list_sum_map_count xs (fun x => resp s x k)).symm
    have h := emMaxQ xs.toFinset
      (fun y => (xs.count y : ℝ) * resp s y k) (fun y => s.comp k y)
      hwpos (fun y hy => hppos k y (List.mem_toFinset.mp hy)) (hpsum k) htne
    have hgroupP : (xs.map (fun x => resp s x k * Real.log (s.comp k x))).sum
        = ∑ y ∈ xs.toFinset,
            ((xs.count y : ℝ) * resp s y k) * Real.log (s.comp k y) := by
      rw [list_sum_map_count]
      exact Finset.sum_congr rfl (fun y _ => by ring)
    have hgroupP' : (xs.map (fun x => resp s x k
          * Real.log ((emStep s xs).comp k x))).sum
        = ∑ y ∈ xs.toFinset, ((xs.count y : ℝ) * resp s y k)
            * Real.log (((xs.count y : ℝ) * resp s y k)
                / ∑ b ∈ xs.toFinset, (xs.count b : ℝ) * resp s b k) := by
      rw [list_sum_map_count]
      refine Finset.sum_congr rfl (fun y _ => ?_)
      have : (emStep s xs).comp k y
          = ((xs.count y : ℝ) * resp s y k)
            / ∑ b ∈ xs.toFinset, (xs.count b : ℝ) * resp s b k := by
        show (xs.map (fun x => if x = y then resp s x k else 0)).sum
            / respSum s xs k = _
        rw [hw k y, hwsum]
      rw [this]
      ring
    rw [show (xs.map (fun x => resp s x k
          * (Real.log ((emStep s xs).comp k x) - Real.log (s.comp k x))))
        = xs.map (fun x => resp s x k * Real.log ((emStep s xs).comp k x)
            - resp s x k * Real.log (s.comp k x)) from
      List.map_congr_left (fun x _ => by ring)]
    rw [list_map_sub_sum, hgroupP, hgroupP']
    linarith
  have hJ : 0 ≤ (xs.map (fun x => ∑ k, resp s x k
      * Real.log ((emStep s xs).priors k * (emStep s xs).comp k x
          / (s.priors k * s.comp k x)))).sum := by
    rw [hJsplit]
    have := Finset.sum_nonneg (fun k (_ : k ∈ Finset.univ) => hT2 k)
    linarith
  linarith

/-- A concrete one-component mixture over booleans used to witness C8. -/
noncomputable def witnessMixture : MixtureState 1 Bool :=
  { priors := fun _ => 1, comp := fun _ _ => 1 / 2 }

/-- Witness for C8: one EM step on the concrete mixture and the dataset
`[true, false]` does not decrease the log-likelihood. -/
theorem claim8_em_monotone_witness :
    ((0 : ℕ) < 1 ∧ ([true, false] : List Bool) ≠ []
      ∧ (∀ k : Fin 1, 0 < witnessMixture.priors k)
      ∧ ∑ k : Fin 1, witnessMixture.priors k ≤ 1
      ∧ (∀ k : Fin 1, ∀ x ∈ ([true, false] : List Bool),
          0 < witnessMixture.comp k x)
      ∧ ∀ k : Fin 1, ∑ y ∈ ([true, false] : List Bool).toFinset,
          witnessMixture.comp k y ≤ 1)
    ∧ logLikelihood witnessMixture [true, false]
      ≤ logLikelihood (emStep witnessMixture [true, false]) [true, false] :=
  ⟨⟨Nat.one_pos, by simp, fun _ => Real.zero_lt_one, by norm_num [witnessMixture],
      fun _ _ _ => by norm_num [witnessMixture],
      fun _ => by norm_num [witnessMixture]⟩,
    claim8_em_monotone witnessMixture [true, false] Nat.one_pos (by simp)
      (fun _ => Real.zero_lt_one) (by norm_num [witnessMixture])
      (fun _ _ _ => by norm_num [witnessMixture])
      (fun _ => by norm_num [witnessMixture])⟩
